import Mathlib

/-
  Verification of the frost-crystal growth simulation in
  src/components/FrostCanvas.tsx.

  Numbers are modelled as exact rationals (ℚ).  The host's math library
  (Math.cos, Math.sin, Math.hypot) is abstracted as function parameters,
  and Math.random as a stream `g : ℕ → ℚ` of draws together with an index
  that is threaded through every call, each draw lying in [0,1).
  The JavaScript value `Infinity` (used as the "never fork again" sentinel
  for `nextBranchIn`) is modelled by the two-constructor type `FVal`.
-/

namespace Frost

/-- pixels per frame each branch grows (GROW_SPEED in the source). -/
def GROW_SPEED : ℚ := 7

/-- mouse pixels between new crystal seeds (SPAWN_DIST in the source). -/
def SPAWN_DIST : ℚ := 13

/-- maximum fork depth (MAX_DEPTH in the source). -/
def MAX_DEPTH : ℕ := 4

/-- background color (BG in the source). -/
def BG : String := "#000b18"

/-- the IEEE-754 double value of Math.PI, as an exact rational. -/
def mathPI : ℚ := 7074237752028440 / 2251799813685248

/-- a JavaScript number that is either finite or +Infinity; used only for
the `nextBranchIn` field, which the source can set to `Infinity`. -/
inductive FVal where
  | fin : ℚ → FVal
  | inf : FVal
deriving DecidableEq

/-- subtraction of a finite amount: `Infinity - s = Infinity`. -/
def FVal.sub : FVal → ℚ → FVal
  | .fin q, s => .fin (q - s)
  | .inf, _ => .inf

/-- the JavaScript comparison `v > 0` (`Infinity > 0` is true). -/
def FVal.isPos : FVal → Prop
  | .fin q => 0 < q
  | .inf => True

/-- the JavaScript comparison `v <= 0` (`Infinity <= 0` is false). -/
def FVal.nonpos : FVal → Prop
  | .fin q => q ≤ 0
  | .inf => False

instance : ∀ v : FVal, Decidable v.isPos
  | .fin q => inferInstanceAs (Decidable (0 < q))
  | .inf => inferInstanceAs (Decidable True)

instance : ∀ v : FVal, Decidable v.nonpos
  | .fin q => inferInstanceAs (Decidable (q ≤ 0))
  | .inf => inferInstanceAs (Decidable False)

/-- a single growing branch in the frost crystal (interface Branch). -/
structure Branch where
  x : ℚ
  y : ℚ
  angle : ℚ
  curlRate : ℚ
  remaining : ℚ
  nextBranchIn : FVal
  alpha : ℚ
  lineWidth : ℚ
  depth : ℕ
deriving DecidableEq

/-- one straight stroke emitted to the canvas by `advance`
(beginPath / moveTo / lineTo / stroke). -/
structure Segment where
  x1 : ℚ
  y1 : ℚ
  x2 : ℚ
  y2 : ℚ
  alpha : ℚ
  lineWidth : ℚ
deriving DecidableEq

/-- the random stream delivers values in [0,1), like Math.random. -/
def rngOK (g : ℕ → ℚ) : Prop := ∀ n, 0 ≤ g n ∧ g n < 1

/-- one arm pushed by the loop body of `seedCrystal`; the five Math.random
calls of one iteration are the draws g k, g (k+1), ..., g (k+4), in source
order (angle jitter, curl sign, length, curl magnitude, fork fraction). -/
def seedArm (g : ℕ → ℚ) (k : ℕ) (x y : ℚ) (i numArms : ℕ) : Branch :=
  let angle := ((i : ℚ) / (numArms : ℚ)) * mathPI * 2 + (g k - 0.5) * 0.5
  let curlSign : ℚ := if 0.5 < g (k + 1) then 1 else -1
  let length := 55 + g (k + 2) * 70
  { x := x, y := y,
    angle := angle,
    curlRate := curlSign * (0.018 + g (k + 3) * 0.022),
    remaining := length,
    nextBranchIn := FVal.fin (length * (0.22 + g (k + 4) * 0.2)),
    alpha := 0.88,
    lineWidth := 1.5,
    depth := MAX_DEPTH }

/-- spawn a new frost crystal centered at (x, y); returns the branches and
the next unused random index.  The first draw picks the number of arms
(3 + Math.floor(Math.random() * 4)), then each arm consumes five draws. -/
def seedCrystal (g : ℕ → ℚ) (k : ℕ) (x y : ℚ) : List Branch × ℕ :=
  let numArms := 3 + (⌊g k * 4⌋).toNat
  ((List.range numArms).map (fun i => seedArm g (k + 1 + 5 * i) x y i numArms),
   k + 1 + 5 * numArms)

/-- the in-place field updates of `advance` once the effective step `s` is
known to be positive: midpoint-angle displacement of the tip, accumulated
curl, and the two countdown decrements. -/
def advBranch (mcos msin : ℚ → ℚ) (b : Branch) (s : ℚ) : Branch :=
  let newAngle := b.angle + b.curlRate * s
  let midAngle := (b.angle + newAngle) / 2
  { b with
    x := b.x + mcos midAngle * s,
    y := b.y + msin midAngle * s,
    angle := newAngle,
    remaining := b.remaining - s,
    nextBranchIn := b.nextBranchIn.sub s }

/-- the stroke drawn by `advance`: from the old tip to the freshly computed
(nx, ny), with the branch's alpha and line width. -/
def advSeg (mcos msin : ℚ → ℚ) (b : Branch) (s : ℚ) : Segment :=
  let newAngle := b.angle + b.curlRate * s
  let midAngle := (b.angle + newAngle) / 2
  { x1 := b.x, y1 := b.y,
    x2 := b.x + mcos midAngle * s,
    y2 := b.y + msin midAngle * s,
    alpha := b.alpha,
    lineWidth := b.lineWidth }

/-- the fork trigger of `advance`, written over the pre-step fields: the
countdown was positive before the step and nonpositive after it, the depth
budget exceeds 1, and more than 6 pixels of growth remain after the step. -/
def forkCond (b : Branch) (s : ℚ) : Prop :=
  b.nextBranchIn.isPos ∧ (b.nextBranchIn.sub s).nonpos ∧
    1 < b.depth ∧ 6 < b.remaining - s

instance (b : Branch) (s : ℚ) : Decidable (forkCond b s) :=
  inferInstanceAs (Decidable (_ ∧ _ ∧ _ ∧ _))

/-- one child pushed by the fork loop of `advance`; the four Math.random
calls of one iteration are g k, ..., g (k+3) in source order
(spread, child length fraction, curl rate, fork fraction).  `b1` is the
parent after its in-place update. -/
def mkChild (g : ℕ → ℚ) (k : ℕ) (b1 : Branch) (side : ℚ) : Branch :=
  let spread := mathPI / 3 + (g k - 0.5) * 0.55
  let childLen := b1.remaining * (0.48 + g (k + 1) * 0.22)
  { x := b1.x, y := b1.y,
    angle := b1.angle + side * spread,
    curlRate := (g (k + 2) - 0.5) * 0.042,
    remaining := childLen,
    nextBranchIn := FVal.fin (childLen * (0.28 + g (k + 3) * 0.32)),
    alpha := b1.alpha * 0.72,
    lineWidth := b1.lineWidth * 0.62,
    depth := b1.depth - 1 }

/-- the children produced at a fork: the draw g k decides bilateral
(Math.random() > 0.25, sides [-1, 1]) versus a single side chosen by the
draw g (k+1) (Math.random() > 0.5 picks +1). -/
def forkChildren (g : ℕ → ℚ) (k : ℕ) (b1 : Branch) : List Branch :=
  if 0.25 < g k then [mkChild g (k + 1) b1 (-1), mkChild g (k + 5) b1 1]
  else [mkChild g (k + 2) b1 (if 0.5 < g (k + 1) then 1 else -1)]

/-- the first random index unused after the fork loop. -/
def forkNextK (g : ℕ → ℚ) (k : ℕ) : ℕ :=
  if 0.25 < g k then k + 9 else k + 6

/-- the parent's rescheduled countdown after a fork: a fresh random
fraction of what remains if more than 14 pixels remain, else Infinity. -/
def rescheduleNBI (g : ℕ → ℚ) (k1 : ℕ) (b1 : Branch) : FVal :=
  if 14 < b1.remaining then FVal.fin (b1.remaining * (0.35 + g k1 * 0.35))
  else FVal.inf

/-- the random index unused after the reschedule (one draw if it fired). -/
def rescheduleK (k1 : ℕ) (b1 : Branch) : ℕ :=
  if 14 < b1.remaining then k1 + 1 else k1

/-- the result of one `advance` call: the branch after its in-place
mutation, the returned children, the strokes drawn, and the next unused
random index. -/
structure StepRes where
  self : Branch
  children : List Branch
  segs : List Segment
  rk : ℕ
deriving DecidableEq

/-- advance one branch by `step` pixels (the source's `advance`): effective
step `s = min(step, remaining)`; if `s <= 0` nothing happens; otherwise the
branch is moved and one segment is drawn, and if the fork condition fires
the children are created and the parent's countdown is rescheduled. -/
def advance (mcos msin : ℚ → ℚ) (g : ℕ → ℚ) (k : ℕ) (b : Branch) (step : ℚ) :
    StepRes :=
  let s := min step b.remaining
  if s ≤ 0 then ⟨b, [], [], k⟩
  else if forkCond b s then
    let b1 := advBranch mcos msin b s
    ⟨{ b1 with nextBranchIn := rescheduleNBI g (forkNextK g k) b1 },
     forkChildren g k b1,
     [advSeg mcos msin b s],
     rescheduleK (forkNextK g k) b1⟩
  else
    ⟨advBranch mcos msin b s, [], [advSeg mcos msin b s], k⟩

/-- the result of one animation frame over the branch collection. -/
structure TickRes where
  keep : List Branch
  spawned : List Branch
  segs : List Segment
  rk : ℕ
deriving DecidableEq

/-- the per-frame loop body of `tick`: advance every branch once with
GROW_SPEED, keep the survivors (remaining > 0), collect the spawned
children and the drawn segments in order. -/
def tickAux (mcos msin : ℚ → ℚ) (g : ℕ → ℚ) : ℕ → List Branch → TickRes
  | k, [] => ⟨[], [], [], k⟩
  | k, b :: rest =>
    let r := advance mcos msin g k b GROW_SPEED
    let t := tickAux mcos msin g r.rk rest
    ⟨if 0 < r.self.remaining then r.self :: t.keep else t.keep,
     r.children ++ t.spawned,
     r.segs ++ t.segs,
     t.rk⟩

/-- one frame of the source's `tick`: the next collection is the survivors
followed by the newly spawned branches.  (When the collection is empty the
source skips the loop, which has the same effect as running it on [].) -/
def tick (mcos msin : ℚ → ℚ) (g : ℕ → ℚ) (k : ℕ) (bs : List Branch) :
    List Branch × List Segment × ℕ :=
  let t := tickAux mcos msin g k bs
  (t.keep ++ t.spawned, t.segs, t.rk)

/-- simulation state: the live collection and the random index. -/
structure SimState where
  branches : List Branch
  rk : ℕ
deriving DecidableEq

/-- one frame applied to the simulation state. -/
def stepSim (mcos msin : ℚ → ℚ) (g : ℕ → ℚ) (st : SimState) : SimState :=
  let t := tickAux mcos msin g st.rk st.branches
  ⟨t.keep ++ t.spawned, t.rk⟩

/-- the simulation state after n frames. -/
def simFrames (mcos msin : ℚ → ℚ) (g : ℕ → ℚ) : SimState → ℕ → SimState
  | st, 0 => st
  | st, n + 1 => simFrames mcos msin g (stepSim mcos msin g st) n

/-- the number of non-degenerate advance calls a remaining length still
affords: ceil(r / GROW_SPEED), clamped to 0 for nonpositive r. -/
def ticksN (r : ℚ) : ℕ := (⌈r / 7⌉).toNat

/-- total segment budget of a list of branches. -/
def sumTicks (bs : List Branch) : ℕ := (bs.map fun b => ticksN b.remaining).sum

/-- termination potential of one branch. -/
def pot (b : Branch) : ℕ := 4 ^ (b.depth + ticksN b.remaining)

/-- termination potential of a collection. -/
def potSum (bs : List Branch) : ℕ := (bs.map pot).sum

/-- instrumented run state: the live collection and random index plus the
number of segments drawn so far, the number of branch instances ever
created, and the total segment budget of every branch ever created. -/
structure RunSt where
  branches : List Branch
  rk : ℕ
  segs : ℕ
  created : ℕ
  budget : ℕ
deriving DecidableEq

/-- one frame applied to the instrumented run state. -/
def stepRun (mcos msin : ℚ → ℚ) (g : ℕ → ℚ) (r : RunSt) : RunSt :=
  let t := tickAux mcos msin g r.rk r.branches
  ⟨t.keep ++ t.spawned, t.rk,
   r.segs + t.segs.length,
   r.created + t.spawned.length,
   r.budget + sumTicks t.spawned⟩

/-- the instrumented state right after one seed-plant event at (x, y). -/
def runInit (g : ℕ → ℚ) (k : ℕ) (x y : ℚ) : RunSt :=
  let s := seedCrystal g k x y
  ⟨s.1, s.2, 0, s.1.length, sumTicks s.1⟩

/-- the instrumented run state after n frames. -/
def runFrames (mcos msin : ℚ → ℚ) (g : ℕ → ℚ) : RunSt → ℕ → RunSt
  | r, 0 => r
  | r, n + 1 => runFrames mcos msin g (stepRun mcos msin g r) n

/-- the per-branch advance results of one frame, in collection order, with
the random index threaded exactly as in `tickAux`. -/
def advanceResults (mcos msin : ℚ → ℚ) (g : ℕ → ℚ) :
    ℕ → List Branch → List StepRes
  | _, [] => []
  | k, b :: rest =>
    let r := advance mcos msin g k b GROW_SPEED
    r :: advanceResults mcos msin g r.rk rest

/-- state of the input-to-seed bridge (the pointer handlers); `planted`
records the positions at which `plant` was called, in order. -/
structure PadState where
  drawing : Bool
  lastPos : Option (ℚ × ℚ)
  distAcc : ℚ
  planted : List (ℚ × ℚ)
deriving DecidableEq

/-- the bridge state before any pointer event. -/
def padInit : PadState := ⟨false, none, 0, []⟩

/-- the source's `handleDown`: start drawing, record the position, zero the
accumulator, and plant one seed at the point. -/
def handleDown (st : PadState) (x y : ℚ) : PadState :=
  { st with drawing := true, lastPos := some (x, y), distAcc := 0,
            planted := st.planted ++ [(x, y)] }

/-- the source's `handleMove`, with Math.hypot abstracted as `hypf`: while
drawing, accumulate the distance from the last position; on reaching
SPAWN_DIST plant a seed at the current position and reset the accumulator
to 0 (overshoot discarded); always update the last position. -/
def handleMove (hypf : ℚ → ℚ → ℚ) (st : PadState) (x y : ℚ) : PadState :=
  match st.lastPos with
  | none => st
  | some lp =>
    if st.drawing then
      let acc := st.distAcc + hypf (x - lp.1) (y - lp.2)
      if SPAWN_DIST ≤ acc then
        { st with planted := st.planted ++ [(x, y)], distAcc := 0,
                  lastPos := some (x, y) }
      else
        { st with distAcc := acc, lastPos := some (x, y) }
    else st

/-- the source's `handleUp`: stop drawing and forget the last position. -/
def handleUp (st : PadState) : PadState :=
  { st with drawing := false, lastPos := none }

/-- a straight-line drag sampled at pitch d along the x axis: a `start`
at (x0, 0) followed by n `move` events at x0 + d, x0 + 2d, .... -/
def lineRun (hypf : ℚ → ℚ → ℚ) (x0 d : ℚ) : ℕ → PadState
  | 0 => handleDown padInit x0 0
  | n + 1 => handleMove hypf (lineRun hypf x0 d n) (x0 + ((n + 1 : ℕ) : ℚ) * d) 0

/-- the drawing surface: its size and the color painted at each point. -/
structure Canvas where
  width : ℚ
  height : ℚ
  pix : ℚ × ℚ → String

/-- ctx.fillRect: paint every point of the axis-aligned rectangle. -/
def fillRect (c : Canvas) (rx ry w h : ℚ) (col : String) : Canvas :=
  { c with pix := fun p =>
      if rx ≤ p.1 ∧ p.1 < rx + w ∧ ry ≤ p.2 ∧ p.2 < ry + h then col
      else c.pix p }

/-- the observable state the clear button acts on: the surface and the
live branch collection. -/
structure AppState where
  canvas : Canvas
  branches : List Branch

/-- the source's `clear`: empty the collection and repaint the whole
surface with the base color.  (The save / shadowBlur := 0 / restore pair
around the fill leaves the context attributes unchanged.) -/
def clear (st : AppState) : AppState :=
  { canvas := fillRect st.canvas 0 0 st.canvas.width st.canvas.height BG,
    branches := [] }

/-- a concrete deterministic random stream (every draw is 0), used to
instantiate the theorems at evaluable inputs. -/
def g0 : ℕ → ℚ := fun _ => 0

/-- a concrete stand-in for the host's cosine and sine: constantly 0. -/
def mc0 : ℚ → ℚ := fun _ => 0

/-- a concrete stand-in for Math.hypot that projects the first argument. -/
def hypf0 : ℚ → ℚ → ℚ := fun a _ => a

/-- a concrete branch whose fork countdown fires on the next 7-pixel
step (countdown 5, remaining 20, depth 4). -/
def bW : Branch := ⟨0, 0, 0, 0, 20, FVal.fin 5, 0.88, 1.5, 4⟩

/-- the single child spawned by advancing `bW` by 7 under `g0`. -/
def cW : Branch := mkChild g0 2 (advBranch mc0 mc0 bW 7) (-1)

/-- a concrete application state with a 10 by 10 white surface. -/
def app0 : AppState := ⟨⟨10, 10, fun _ => "white"⟩, [bW]⟩

/-! ### Basic facts about one `advance` call -/

theorem advBranch_remaining (mcos msin : ℚ → ℚ) (b : Branch) (s : ℚ) :
    (advBranch mcos msin b s).remaining = b.remaining - s := rfl

theorem advBranch_depth (mcos msin : ℚ → ℚ) (b : Branch) (s : ℚ) :
    (advBranch mcos msin b s).depth = b.depth := rfl

theorem advance_nonpos (mcos msin : ℚ → ℚ) (g : ℕ → ℚ) (k : ℕ) (b : Branch)
    (step : ℚ) (h : min step b.remaining ≤ 0) :
    advance mcos msin g k b step = ⟨b, [], [], k⟩ := by
  simp only [advance]
  rw [if_pos h]

theorem forkCond_pos {b : Branch} {s : ℚ} (h : forkCond b s) : 0 < s := by
  obtain ⟨h1, h2, -, -⟩ := h
  cases hnb : b.nextBranchIn with
  | fin q =>
    rw [hnb] at h1 h2
    simp only [FVal.isPos] at h1
    simp only [FVal.sub, FVal.nonpos] at h2
    linarith
  | inf =>
    rw [hnb] at h2
    simp only [FVal.sub, FVal.nonpos] at h2

theorem advance_pos (mcos msin : ℚ → ℚ) (g : ℕ → ℚ) (k : ℕ) (b : Branch)
    (step : ℚ) (h : 0 < min step b.remaining) :
    advance mcos msin g k b step =
      if forkCond b (min step b.remaining) then
        ⟨{ advBranch mcos msin b (min step b.remaining) with
             nextBranchIn := rescheduleNBI g (forkNextK g k)
               (advBranch mcos msin b (min step b.remaining)) },
         forkChildren g k (advBranch mcos msin b (min step b.remaining)),
         [advSeg mcos msin b (min step b.remaining)],
         rescheduleK (forkNextK g k)
           (advBranch mcos msin b (min step b.remaining))⟩
      else
        ⟨advBranch mcos msin b (min step b.remaining), [],
         [advSeg mcos msin b (min step b.remaining)], k⟩ := by
  simp only [advance]
  rw [if_neg (not_le.mpr h)]

theorem advance_self_remaining (mcos msin : ℚ → ℚ) (g : ℕ → ℚ) (k : ℕ)
    (b : Branch) (step : ℚ) (h : 0 < min step b.remaining) :
    (advance mcos msin g k b step).self.remaining
      = b.remaining - min step b.remaining := by
  rw [advance_pos mcos msin g k b step h]
  split <;> rfl

theorem advance_self_depth (mcos msin : ℚ → ℚ) (g : ℕ → ℚ) (k : ℕ)
    (b : Branch) (step : ℚ) (h : 0 < min step b.remaining) :
    (advance mcos msin g k b step).self.depth = b.depth := by
  rw [advance_pos mcos msin g k b step h]
  split <;> rfl

theorem advance_segs_pos (mcos msin : ℚ → ℚ) (g : ℕ → ℚ) (k : ℕ)
    (b : Branch) (step : ℚ) (h : 0 < min step b.remaining) :
    (advance mcos msin g k b step).segs
      = [advSeg mcos msin b (min step b.remaining)] := by
  rw [advance_pos mcos msin g k b step h]
  split <;> rfl

theorem advance_children_eq (mcos msin : ℚ → ℚ) (g : ℕ → ℚ) (k : ℕ)
    (b : Branch) (step : ℚ) (h : 0 < min step b.remaining) :
    (advance mcos msin g k b step).children
      = if forkCond b (min step b.remaining) then
          forkChildren g k (advBranch mcos msin b (min step b.remaining))
        else [] := by
  rw [advance_pos mcos msin g k b step h]
  split <;> rfl

theorem forkChildren_ne_nil (g : ℕ → ℚ) (k : ℕ) (b1 : Branch) :
    forkChildren g k b1 ≠ [] := by
  unfold forkChildren
  split <;> simp

theorem forkChildren_mem (g : ℕ → ℚ) (k : ℕ) (b1 : Branch) (c : Branch)
    (hc : c ∈ forkChildren g k b1) :
    ∃ j side, c = mkChild g j b1 side := by
  unfold forkChildren at hc
  split at hc
  · rcases List.mem_pair.mp hc with h | h
    · exact ⟨k + 1, -1, h⟩
    · exact ⟨k + 5, 1, h⟩
  · rw [List.mem_singleton] at hc
    exact ⟨k + 2, _, hc⟩

theorem advance_children_sub (mcos msin : ℚ → ℚ) (g : ℕ → ℚ) (k : ℕ)
    (b : Branch) (step : ℚ) (c : Branch)
    (hc : c ∈ (advance mcos msin g k b step).children) :
    forkCond b (min step b.remaining) ∧
      ∃ j side, c = mkChild g j (advBranch mcos msin b (min step b.remaining)) side := by
  by_cases h0 : min step b.remaining ≤ 0
  · rw [advance_nonpos mcos msin g k b step h0] at hc
    simp at hc
  · rw [advance_children_eq mcos msin g k b step (not_le.mp h0)] at hc
    split at hc
    · next hfc => exact ⟨hfc, forkChildren_mem g k _ c hc⟩
    · simp at hc

/-- C1: after any `advance(branch, stepSize)` call with a nonnegative step
on a branch with nonnegative remaining length, the remaining length has
decreased by exactly min(stepSize, remaining) and is still nonnegative;
when that minimum is nonpositive the call does nothing at all and returns
no children. -/
theorem advance_remaining_decreases (mcos msin : ℚ → ℚ) (g : ℕ → ℚ) (k : ℕ)
    (b : Branch) (step : ℚ) (hstep : 0 ≤ step) (hrem : 0 ≤ b.remaining) :
    (advance mcos msin g k b step).self.remaining
        = b.remaining - min step b.remaining
      ∧ 0 ≤ (advance mcos msin g k b step).self.remaining
      ∧ (min step b.remaining ≤ 0 →
          advance mcos msin g k b step = ⟨b, [], [], k⟩) := by
  by_cases h0 : min step b.remaining ≤ 0
  · have hmin : min step b.remaining = 0 := le_antisymm h0 (le_min hstep hrem)
    rw [advance_nonpos mcos msin g k b step h0]
    exact ⟨by rw [hmin]; ring, by simpa using hrem, fun _ => rfl⟩
  · push_neg at h0
    have h1 := advance_self_remaining mcos msin g k b step h0
    refine ⟨h1, ?_, fun hc => absurd hc (not_le.mpr h0)⟩
    rw [h1]
    have := min_le_right step b.remaining
    linarith

/-- C1 witness at a concrete input. -/
theorem advance_remaining_decreases_witness :
    (0 : ℚ) ≤ 7 ∧ 0 ≤ bW.remaining ∧
      (advance mc0 mc0 g0 0 bW 7).self.remaining
        = bW.remaining - min 7 bW.remaining :=
  ⟨by norm_num, by norm_num [bW],
   (advance_remaining_decreases mc0 mc0 g0 0 bW 7 (by norm_num)
     (by norm_num [bW])).1⟩

/-- C2: on a non-degenerate step s = min(stepSize, remaining), `advance`
stores heading + curlRate * s as the new heading, moves the tip by s along
the midpoint heading, and the one segment it renders ends exactly at the
stored new tip. -/
theorem advance_midpoint_geometry (mcos msin : ℚ → ℚ) (g : ℕ → ℚ) (k : ℕ)
    (b : Branch) (step : ℚ) (h : 0 < min step b.remaining) :
    (advance mcos msin g k b step).self.angle
        = b.angle + b.curlRate * min step b.remaining
      ∧ (advance mcos msin g k b step).self.x
        = b.x + mcos ((b.angle + (b.angle + b.curlRate * min step b.remaining)) / 2)
            * min step b.remaining
      ∧ (advance mcos msin g k b step).self.y
        = b.y + msin ((b.angle + (b.angle + b.curlRate * min step b.remaining)) / 2)
            * min step b.remaining
      ∧ (advance mcos msin g k b step).segs
        = [{ x1 := b.x, y1 := b.y,
             x2 := (advance mcos msin g k b step).self.x,
             y2 := (advance mcos msin g k b step).self.y,
             alpha := b.alpha, lineWidth := b.lineWidth }] := by
  rw [advance_pos mcos msin g k b step h]
  split <;> exact ⟨rfl, rfl, rfl, rfl⟩

/-- C2 witness at a concrete input. -/
theorem advance_midpoint_geometry_witness :
    0 < min (7 : ℚ) bW.remaining ∧
      (advance mc0 mc0 g0 0 bW 7).self.angle
        = bW.angle + bW.curlRate * min 7 bW.remaining :=
  ⟨by norm_num [bW],
   (advance_midpoint_geometry mc0 mc0 g0 0 bW 7 (by norm_num [bW])).1⟩

/-- C3: an `advance` call returns children exactly when the fork countdown
was positive before the step and nonpositive after it, the depth budget
exceeds 1, and the post-step remaining length exceeds 6; in particular a
branch with depth budget at most 1 never forks. -/
theorem advance_fork_iff (mcos msin : ℚ → ℚ) (g : ℕ → ℚ) (k : ℕ)
    (b : Branch) (step : ℚ) :
    ((advance mcos msin g k b step).children ≠ [] ↔
        (b.nextBranchIn.isPos
          ∧ (b.nextBranchIn.sub (min step b.remaining)).nonpos
          ∧ 1 < b.depth
          ∧ 6 < b.remaining - min step b.remaining))
      ∧ (b.depth ≤ 1 → (advance mcos msin g k b step).children = []) := by
  have hiff : (advance mcos msin g k b step).children ≠ [] ↔
      forkCond b (min step b.remaining) := by
    constructor
    · intro hne
      obtain ⟨c, hc⟩ := List.exists_mem_of_ne_nil _ hne
      exact (advance_children_sub mcos msin g k b step c hc).1
    · intro hfc
      rw [advance_children_eq mcos msin g k b step (forkCond_pos hfc)]
      rw [if_pos hfc]
      exact forkChildren_ne_nil g k _
  refine ⟨hiff, fun hd => ?_⟩
  by_contra hne
  have hfc := hiff.mp hne
  have := hfc.2.2.1
  omega

/-- C3 witness: the concrete branch bW satisfies the fork condition and
indeed returns children. -/
theorem advance_fork_iff_witness :
    (advance mc0 mc0 g0 0 bW 7).children ≠ [] :=
  (advance_fork_iff mc0 mc0 g0 0 bW 7).1.mpr
    (by refine ⟨?_, ?_, ?_, ?_⟩ <;> with_unfolding_all decide)

/-- C4: every child returned by `advance` has a depth budget exactly one
below its parent's, opacity 0.72 times and stroke width 0.62 times the
parent's (strictly smaller for positive parent values), and starts at the
parent's post-step tip. -/
theorem advance_child_inheritance (mcos msin : ℚ → ℚ) (g : ℕ → ℚ) (k : ℕ)
    (b : Branch) (step : ℚ) (c : Branch)
    (hc : c ∈ (advance mcos msin g k b step).children) :
    c.depth + 1 = b.depth
      ∧ c.alpha = b.alpha * 0.72
      ∧ c.lineWidth = b.lineWidth * 0.62
      ∧ (0 < b.alpha → c.alpha < b.alpha)
      ∧ (0 < b.lineWidth → c.lineWidth < b.lineWidth)
      ∧ c.x = (advance mcos msin g k b step).self.x
      ∧ c.y = (advance mcos msin g k b step).self.y := by
  obtain ⟨hfc, j, side, hcj⟩ := advance_children_sub mcos msin g k b step c hc
  have hdepth : 1 < b.depth := hfc.2.2.1
  have hx : (advance mcos msin g k b step).self.x
      = (advBranch mcos msin b (min step b.remaining)).x := by
    rw [advance_pos mcos msin g k b step (forkCond_pos hfc)]
    split <;> rfl
  have hy : (advance mcos msin g k b step).self.y
      = (advBranch mcos msin b (min step b.remaining)).y := by
    rw [advance_pos mcos msin g k b step (forkCond_pos hfc)]
    split <;> rfl
  subst hcj
  refine ⟨?_, rfl, rfl, ?_, ?_, by rw [hx]; rfl, by rw [hy]; rfl⟩
  · have : (advBranch mcos msin b (min step b.remaining)).depth = b.depth := rfl
    simp only [mkChild, this]
    omega
  · intro ha
    show b.alpha * 0.72 < b.alpha
    nlinarith
  · intro hw
    show b.lineWidth * 0.62 < b.lineWidth
    nlinarith

/-- C4 witness: the concrete branch bW forks when advanced by 7 under g0,
and its child cW satisfies the inheritance equations. -/
theorem advance_child_inheritance_witness :
    cW ∈ (advance mc0 mc0 g0 0 bW 7).children ∧ cW.depth + 1 = bW.depth := by
  have hm : cW ∈ (advance mc0 mc0 g0 0 bW 7).children := by
    rw [show (advance mc0 mc0 g0 0 bW 7).children = [cW] from by
      with_unfolding_all rfl]
    exact List.mem_singleton_self cW
  exact ⟨hm, (advance_child_inheritance mc0 mc0 g0 0 bW 7 cW hm).1⟩

/-! ### Seed generation -/

theorem rngOK_g0 : rngOK g0 := fun _ => ⟨le_rfl, by norm_num [g0]⟩

/-- C6: `seedCrystal` returns between 3 and 6 branches, all with tip at
the given point and depth budget MAX_DEPTH. -/
theorem seedCrystal_spec (g : ℕ → ℚ) (k : ℕ) (x y : ℚ) (hg : rngOK g) :
    3 ≤ (seedCrystal g k x y).1.length
      ∧ (seedCrystal g k x y).1.length ≤ 6
      ∧ ∀ b ∈ (seedCrystal g k x y).1,
          b.x = x ∧ b.y = y ∧ b.depth = MAX_DEPTH := by
  obtain ⟨h0, h1⟩ := hg k
  have hlen : (seedCrystal g k x y).1.length = 3 + (⌊g k * 4⌋).toNat := by
    simp [seedCrystal]
  have hfl0 : 0 ≤ ⌊g k * 4⌋ :=
    Int.floor_nonneg.mpr (mul_nonneg h0 (by norm_num))
  have hfl1 : ⌊g k * 4⌋ < 4 := Int.floor_lt.mpr (by push_cast; linarith)
  refine ⟨by omega, by omega, ?_⟩
  intro b hb
  simp only [seedCrystal, List.mem_map] at hb
  obtain ⟨i, -, hbi⟩ := hb
  rw [← hbi]
  exact ⟨rfl, rfl, rfl⟩

/-- C6 witness at a concrete input. -/
theorem seedCrystal_spec_witness :
    rngOK g0 ∧ 3 ≤ (seedCrystal g0 0 100 100).1.length :=
  ⟨rngOK_g0, (seedCrystal_spec g0 0 100 100 rngOK_g0).1⟩

/-! ### The input-to-seed bridge -/

theorem lineRun_invariant (hypf : ℚ → ℚ → ℚ) (x0 : ℚ) (kk : ℕ)
    (hk : 0 < kk) (hd : hypf (SPAWN_DIST / kk) 0 = SPAWN_DIST / kk) :
    ∀ n, (lineRun hypf x0 (SPAWN_DIST / kk) n).drawing = true
      ∧ (lineRun hypf x0 (SPAWN_DIST / kk) n).lastPos
          = some (x0 + (n : ℚ) * (SPAWN_DIST / kk), 0)
      ∧ (lineRun hypf x0 (SPAWN_DIST / kk) n).distAcc
          = ((n % kk : ℕ) : ℚ) * (SPAWN_DIST / kk)
      ∧ (lineRun hypf x0 (SPAWN_DIST / kk) n).planted.length = 1 + n / kk := by
  have hkq : (0 : ℚ) < (kk : ℚ) := by exact_mod_cast hk
  have hdpos : (0 : ℚ) < SPAWN_DIST / kk := by
    apply div_pos _ hkq
    norm_num [SPAWN_DIST]
  have hline : (kk : ℚ) * (SPAWN_DIST / kk) = SPAWN_DIST := by
    field_simp
  intro n
  induction n with
  | zero =>
    refine ⟨rfl, ?_, by norm_num [lineRun, handleDown, padInit], ?_⟩
    · show some (x0, 0) = _
      norm_num
    · show (padInit.planted ++ [(x0, 0)]).length = 1 + 0 / kk
      simp [padInit]
  | succ n ih =>
    obtain ⟨ihd, ihp, iha, ihl⟩ := ih
    set d : ℚ := SPAWN_DIST / kk with hdd
    have harg : x0 + ((n + 1 : ℕ) : ℚ) * d - (x0 + (n : ℚ) * d) = d := by
      push_cast
      ring
    have hstep : lineRun hypf x0 d (n + 1)
        = handleMove hypf (lineRun hypf x0 d n) (x0 + ((n + 1 : ℕ) : ℚ) * d) 0 :=
      rfl
    have hacc : (lineRun hypf x0 d n).distAcc
        + hypf (x0 + ((n + 1 : ℕ) : ℚ) * d - (x0 + (n : ℚ) * d)) (0 - 0)
        = ((n % kk + 1 : ℕ) : ℚ) * d := by
      rw [harg, show (0 : ℚ) - 0 = 0 from by ring, hd, iha]
      push_cast
      ring
    by_cases hcross : n % kk + 1 = kk
    · have hge : SPAWN_DIST ≤ ((n % kk + 1 : ℕ) : ℚ) * d := by
        rw [hcross, ← hline]
      have hdiv : (n + 1) / kk = n / kk + 1 ∧ (n + 1) % kk = 0 := by
        refine (Nat.div_mod_unique hk).mpr ⟨?_, hk⟩
        have h1 := Nat.div_add_mod n kk
        have h2 : kk * (n / kk + 1) = kk * (n / kk) + kk := by ring
        omega
      rw [hstep]
      unfold handleMove
      rw [ihp]
      simp only [ihd, if_true]
      rw [hacc, if_pos hge]
      refine ⟨rfl, rfl, ?_, ?_⟩
      · show (0 : ℚ) = ((n + 1) % kk : ℕ) * d
        rw [hdiv.2]
        norm_num
      · show ((lineRun hypf x0 d n).planted ++ [_]).length = 1 + (n + 1) / kk
        rw [List.length_append, ihl, hdiv.1]
        simp only [List.length_singleton]
        omega
    · have hmodlt : n % kk + 1 < kk := by
        have := Nat.mod_lt n hk
        omega
      have hlt : ¬ SPAWN_DIST ≤ ((n % kk + 1 : ℕ) : ℚ) * d := by
        push_neg
        rw [← hline]
        apply mul_lt_mul_of_pos_right _ hdpos
        exact_mod_cast hmodlt
      have hdiv : (n + 1) / kk = n / kk ∧ (n + 1) % kk = n % kk + 1 := by
        refine (Nat.div_mod_unique hk).mpr ⟨?_, hmodlt⟩
        have := Nat.div_add_mod n kk
        omega
      rw [hstep]
      unfold handleMove
      rw [ihp]
      simp only [ihd, if_true]
      rw [hacc, if_neg hlt]
      refine ⟨rfl, rfl, ?_, ?_⟩
      · show ((n % kk + 1 : ℕ) : ℚ) * d = ((n + 1) % kk : ℕ) * d
        rw [hdiv.2]
      · show (lineRun hypf x0 d n).planted.length = 1 + (n + 1) / kk
        rw [ihl, hdiv.1]

/-- C9: a start event at (x0, 0) followed by n straight-line moves of
pitch SPAWN_DIST / kk along the x axis (total distance D = n * pitch, so
the accumulator crosses the threshold exactly at sampled points) plants
1 + floor(D / SPAWN_DIST) seeds, counting the initial one. -/
theorem lineRun_seed_count (hypf : ℚ → ℚ → ℚ) (x0 : ℚ) (kk n : ℕ)
    (hk : 0 < kk) (hd : hypf (SPAWN_DIST / kk) 0 = SPAWN_DIST / kk) :
    (lineRun hypf x0 (SPAWN_DIST / kk) n).planted.length
      = 1 + ⌊((n : ℚ) * (SPAWN_DIST / kk)) / SPAWN_DIST⌋₊ := by
  have hfl : ((n : ℚ) * (SPAWN_DIST / kk)) / SPAWN_DIST = (n : ℚ) / (kk : ℚ) := by
    have hkq : (kk : ℚ) ≠ 0 := by
      exact_mod_cast hk.ne'
    field_simp [SPAWN_DIST]
    ring
  rw [(lineRun_invariant hypf x0 kk hk hd n).2.2.2, hfl,
    Nat.floor_div_eq_div]

/-- C9 witness: five moves of pitch 13/2 plant 1 + floor(5/2) = 3 seeds. -/
theorem lineRun_seed_count_witness :
    0 < 2 ∧ hypf0 (SPAWN_DIST / (2 : ℕ)) 0 = SPAWN_DIST / (2 : ℕ) ∧
      (lineRun hypf0 0 (SPAWN_DIST / (2 : ℕ)) 5).planted.length
        = 1 + ⌊((5 : ℕ) : ℚ) * (SPAWN_DIST / (2 : ℕ)) / SPAWN_DIST⌋₊ :=
  ⟨by norm_num, rfl, lineRun_seed_count hypf0 0 2 5 (by norm_num) rfl⟩

/-! ### The clear button -/

/-- C10: clear is idempotent, and its result is the empty collection with
the whole surface painted the base color. -/
theorem clear_idempotent (st : AppState) :
    clear (clear st) = clear st
      ∧ (clear st).branches = []
      ∧ ∀ p : ℚ × ℚ, 0 ≤ p.1 → p.1 < st.canvas.width → 0 ≤ p.2 →
          p.2 < st.canvas.height → (clear st).canvas.pix p = BG := by
  obtain ⟨⟨w, h, pix⟩, bs⟩ := st
  refine ⟨?_, rfl, ?_⟩
  · simp only [clear, fillRect]
    congr 1
    simp only [Canvas.mk.injEq, true_and]
    funext p
    by_cases hp : 0 ≤ p.1 ∧ p.1 < 0 + w ∧ 0 ≤ p.2 ∧ p.2 < 0 + h
    · rw [if_pos hp, if_pos hp]
    · rw [if_neg hp, if_neg hp]
  · intro p h1 h2 h3 h4
    simp only [clear, fillRect]
    rw [if_pos]
    constructor
    · exact h1
    refine ⟨by simpa using h2, h3, by simpa using h4⟩

/-! ### The segment budget ticksN and the termination potential -/

theorem ticksN_nonpos {r : ℚ} (h : r ≤ 0) : ticksN r = 0 := by
  unfold ticksN
  have hd : r / 7 ≤ ((0 : ℤ) : ℚ) := by push_cast; linarith
  have := Int.ceil_le.mpr hd
  omega

theorem ticksN_pos {r : ℚ} (h : 0 < r) : 1 ≤ ticksN r := by
  unfold ticksN
  have hd : (0 : ℚ) < r / 7 := by linarith
  have := Int.ceil_pos.mpr hd
  omega

theorem ticksN_step {r : ℚ} (h : 0 < r) : ticksN (r - min 7 r) = ticksN r - 1 := by
  rcases le_or_lt r 7 with hr | hr
  · have hmin : min (7 : ℚ) r = r := min_eq_right hr
    have h1 : ⌈r / 7⌉ = 1 := by
      rw [Int.ceil_eq_iff]
      constructor
      · push_cast
        linarith
      · push_cast
        rw [div_le_one (by norm_num : (0:ℚ) < 7)]
        linarith
    rw [hmin, sub_self]
    unfold ticksN
    rw [h1]
    norm_num
  · have hmin : min (7 : ℚ) r = 7 := min_eq_left (le_of_lt hr)
    have h2 : ⌈(r - 7) / 7⌉ = ⌈r / 7⌉ - 1 := by
      rw [sub_div, div_self (by norm_num : (7:ℚ) ≠ 0)]
      exact_mod_cast Int.ceil_sub_int (r / 7) 1
    have h3 : 2 ≤ ⌈r / 7⌉ := by
      have hlt : (1 : ℚ) < r / 7 := by
        rw [lt_div_iff₀ (by norm_num : (0:ℚ) < 7)]
        linarith
      have := Int.lt_ceil.mpr (by exact_mod_cast hlt : ((1 : ℤ) : ℚ) < r / 7)
      omega
    rw [hmin]
    unfold ticksN
    rw [h2]
    omega

theorem ticksN_mono {a b : ℚ} (h : a ≤ b) : ticksN a ≤ ticksN b := by
  unfold ticksN
  have := Int.ceil_le_ceil (a := a / 7) (b := b / 7) (by linarith)
  omega

theorem potSum_nil : potSum [] = 0 := rfl

theorem potSum_cons (b : Branch) (bs : List Branch) :
    potSum (b :: bs) = pot b + potSum bs := by
  simp [potSum]

theorem potSum_append (as bs : List Branch) :
    potSum (as ++ bs) = potSum as + potSum bs := by
  simp [potSum]

theorem sumTicks_nil : sumTicks [] = 0 := rfl

theorem sumTicks_cons (b : Branch) (bs : List Branch) :
    sumTicks (b :: bs) = ticksN b.remaining + sumTicks bs := by
  simp [sumTicks]

theorem sumTicks_append (as bs : List Branch) :
    sumTicks (as ++ bs) = sumTicks as + sumTicks bs := by
  simp [sumTicks]

/-! ### Facts about the children of one advance call -/

theorem advance_child_remaining (mcos msin : ℚ → ℚ) (g : ℕ → ℚ) (k : ℕ)
    (b : Branch) (step : ℚ) (c : Branch) (hg : rngOK g)
    (hc : c ∈ (advance mcos msin g k b step).children) :
    0 < c.remaining ∧ c.remaining ≤ b.remaining - min step b.remaining
      ∧ c.depth + 1 = b.depth := by
  obtain ⟨hfc, j, side, hcj⟩ := advance_children_sub mcos msin g k b step c hc
  have h6 : 6 < b.remaining - min step b.remaining := hfc.2.2.2
  have hd : 1 < b.depth := hfc.2.2.1
  obtain ⟨hu0, hu1⟩ := hg (j + 1)
  have hrem : c.remaining
      = (b.remaining - min step b.remaining) * (0.48 + g (j + 1) * 0.22) := by
    rw [hcj]
    rfl
  have hdep : c.depth = b.depth - 1 := by
    rw [hcj]
    rfl
  refine ⟨?_, ?_, by omega⟩
  · rw [hrem]
    apply mul_pos (by linarith)
    nlinarith
  · rw [hrem]
    apply mul_le_of_le_one_right (by linarith)
    nlinarith

theorem advance_children_length (mcos msin : ℚ → ℚ) (g : ℕ → ℚ) (k : ℕ)
    (b : Branch) (step : ℚ) :
    (advance mcos msin g k b step).children.length ≤ 2 := by
  by_cases h0 : min step b.remaining ≤ 0
  · rw [advance_nonpos mcos msin g k b step h0]
    norm_num
  · rw [advance_children_eq mcos msin g k b step (not_le.mp h0)]
    split
    · unfold forkChildren
      split <;> norm_num
    · norm_num

/-- the contribution of one advance result to the next frame's potential:
the advanced branch if it is kept, plus all of its children. -/
theorem advance_pot_lt (mcos msin : ℚ → ℚ) (g : ℕ → ℚ) (k : ℕ) (b : Branch)
    (hg : rngOK g) :
    (if 0 < (advance mcos msin g k b GROW_SPEED).self.remaining
        then pot (advance mcos msin g k b GROW_SPEED).self else 0)
      + potSum (advance mcos msin g k b GROW_SPEED).children < pot b := by
  have hpotpos : 0 < pot b := Nat.pos_pow_of_pos _ (by norm_num)
  by_cases h0 : min GROW_SPEED b.remaining ≤ 0
  · have hrem : b.remaining ≤ 0 := by
      rcases min_le_iff.mp h0 with h | h
      · norm_num [GROW_SPEED] at h
      · exact h
    rw [advance_nonpos mcos msin g k b GROW_SPEED h0]
    simp only [potSum_nil]
    rw [if_neg (not_lt.mpr hrem)]
    simpa using hpotpos
  · push_neg at h0
    have hrem : 0 < b.remaining := (lt_min_iff.mp h0).2
    have hsr := advance_self_remaining mcos msin g k b GROW_SPEED h0
    have hsd := advance_self_depth mcos msin g k b GROW_SPEED h0
    have hts : ticksN (advance mcos msin g k b GROW_SPEED).self.remaining
        = ticksN b.remaining - 1 := by
      rw [hsr]
      have h7 : min GROW_SPEED b.remaining = min 7 b.remaining := rfl
      rw [h7]
      exact ticksN_step hrem
    have hn1 : 1 ≤ ticksN b.remaining := ticksN_pos hrem
    by_cases hfc : forkCond b (min GROW_SPEED b.remaining)
    · -- a fork happens: the parent is kept and at most two children appear
      have h6 : 6 < b.remaining - min GROW_SPEED b.remaining := hfc.2.2.2
      have hd : 1 < b.depth := hfc.2.2.1
      have hkept : 0 < (advance mcos msin g k b GROW_SPEED).self.remaining := by
        rw [hsr]
        linarith
      have hn2 : 2 ≤ ticksN b.remaining := by
        have : 1 ≤ ticksN (advance mcos msin g k b GROW_SPEED).self.remaining :=
          ticksN_pos (by rw [hsr]; linarith)
        omega
      obtain ⟨n2, hn⟩ : ∃ n2, ticksN b.remaining = n2 + 2 :=
        ⟨ticksN b.remaining - 2, by omega⟩
      obtain ⟨d2, hdep⟩ : ∃ d2, b.depth = d2 + 2 := ⟨b.depth - 2, by omega⟩
      have hchild : ∀ c ∈ (advance mcos msin g k b GROW_SPEED).children,
          pot c ≤ 4 ^ (d2 + n2 + 2) := by
        intro c hcmem
        obtain ⟨hc0, hcle, hcd⟩ :=
          advance_child_remaining mcos msin g k b GROW_SPEED c hg hcmem
        have hct : ticksN c.remaining ≤ n2 + 1 := by
          have := ticksN_mono hcle
          rw [← hsr] at this
          omega
        have hcd2 : c.depth = d2 + 1 := by omega
        unfold pot
        apply Nat.pow_le_pow_right (by norm_num)
        omega
      have hchsum : potSum (advance mcos msin g k b GROW_SPEED).children
          ≤ 2 * 4 ^ (d2 + n2 + 2) := by
        have hlen := advance_children_length mcos msin g k b GROW_SPEED
        calc potSum (advance mcos msin g k b GROW_SPEED).children
            ≤ ((advance mcos msin g k b GROW_SPEED).children.map pot).length
                * 4 ^ (d2 + n2 + 2) := by
              apply List.sum_le_card_nsmul
              intro q hq
              obtain ⟨c, hcmem, hcq⟩ := List.mem_map.mp hq
              rw [← hcq]
              exact hchild c hcmem
          _ ≤ 2 * 4 ^ (d2 + n2 + 2) := by
              rw [List.length_map]
              exact Nat.mul_le_mul_right _ hlen
      have hself : pot (advance mcos msin g k b GROW_SPEED).self
          = 4 ^ (d2 + n2 + 3) := by
        unfold pot
        rw [hsd, hts, hn, hdep]
        congr 1
        omega
      rw [if_pos hkept, hself]
      have hgoal : pot b = 4 ^ (d2 + n2 + 4) := by
        unfold pot
        rw [hn, hdep]
        congr 1
        omega
      rw [hgoal]
      have hP : 0 < 4 ^ (d2 + n2 + 2) := Nat.pos_pow_of_pos _ (by norm_num)
      have e3 : 4 ^ (d2 + n2 + 3) = 4 ^ (d2 + n2 + 2) * 4 := pow_succ 4 _
      have e4 : 4 ^ (d2 + n2 + 4) = 4 ^ (d2 + n2 + 3) * 4 := pow_succ 4 _
      omega
    · -- no fork: no children, the parent may or may not be kept
      have hch : (advance mcos msin g k b GROW_SPEED).children = [] := by
        rw [advance_children_eq mcos msin g k b GROW_SPEED h0, if_neg hfc]
      rw [hch, potSum_nil]
      split
      · unfold pot
        rw [hsd, hts]
        have : b.depth + (ticksN b.remaining - 1) < b.depth + ticksN b.remaining := by
          omega
        exact Nat.pow_lt_pow_right (by norm_num) this
      · simpa using hpotpos

/-! ### Per-frame lemmas -/

theorem tickAux_keep_eq (mcos msin : ℚ → ℚ) (g : ℕ → ℚ) :
    ∀ (k : ℕ) (bs : List Branch),
      (tickAux mcos msin g k bs).keep
        = ((advanceResults mcos msin g k bs).map StepRes.self).filter
            (fun b => decide (0 < b.remaining)) := by
  intro k bs
  induction bs generalizing k with
  | nil => rfl
  | cons b rest ih =>
    simp only [tickAux, advanceResults, List.map_cons, List.filter_cons]
    by_cases h : 0 < (advance mcos msin g k b GROW_SPEED).self.remaining
    · simp [h, ih]
    · simp [h, ih]

theorem tickAux_spawned_eq (mcos msin : ℚ → ℚ) (g : ℕ → ℚ) :
    ∀ (k : ℕ) (bs : List Branch),
      (tickAux mcos msin g k bs).spawned
        = ((advanceResults mcos msin g k bs).map StepRes.children).flatten := by
  intro k bs
  induction bs generalizing k with
  | nil => rfl
  | cons b rest ih =>
    simp only [tickAux, advanceResults, List.map_cons, List.flatten_cons]
    rw [ih]

theorem tickAux_keep_pos (mcos msin : ℚ → ℚ) (g : ℕ → ℚ) :
    ∀ (k : ℕ) (bs : List Branch) (b : Branch),
      b ∈ (tickAux mcos msin g k bs).keep → 0 < b.remaining := by
  intro k bs
  induction bs generalizing k with
  | nil => intro b hb; simp [tickAux] at hb
  | cons a rest ih =>
    intro b hb
    simp only [tickAux] at hb
    split at hb
    · rcases List.mem_cons.mp hb with h | h
      · next hpos => rw [h]; exact hpos
      · exact ih _ b h
    · exact ih _ b hb

theorem tickAux_spawned_pos (mcos msin : ℚ → ℚ) (g : ℕ → ℚ) (hg : rngOK g) :
    ∀ (k : ℕ) (bs : List Branch) (c : Branch),
      c ∈ (tickAux mcos msin g k bs).spawned → 0 < c.remaining := by
  intro k bs
  induction bs generalizing k with
  | nil => intro c hc; simp [tickAux] at hc
  | cons a rest ih =>
    intro c hc
    simp only [tickAux] at hc
    rcases List.mem_append.mp hc with h | h
    · exact (advance_child_remaining mcos msin g k a GROW_SPEED c hg h).1
    · exact ih _ c h

theorem stepSim_pos (mcos msin : ℚ → ℚ) (g : ℕ → ℚ) (hg : rngOK g)
    (st : SimState) (b : Branch) (hb : b ∈ (stepSim mcos msin g st).branches) :
    0 < b.remaining := by
  simp only [stepSim] at hb
  rcases List.mem_append.mp hb with h | h
  · exact tickAux_keep_pos mcos msin g _ _ b h
  · exact tickAux_spawned_pos mcos msin g hg _ _ b h

theorem simFrames_pos (mcos msin : ℚ → ℚ) (g : ℕ → ℚ) (hg : rngOK g) :
    ∀ (n : ℕ) (st : SimState) (b : Branch),
      b ∈ (simFrames mcos msin g (stepSim mcos msin g st) n).branches →
        0 < b.remaining := by
  intro n
  induction n with
  | zero => intro st b hb; exact stepSim_pos mcos msin g hg st b hb
  | succ n ih =>
    intro st b hb
    exact ih (stepSim mcos msin g st) b hb

theorem tickAux_potSum_le (mcos msin : ℚ → ℚ) (g : ℕ → ℚ) (hg : rngOK g) :
    ∀ (k : ℕ) (bs : List Branch),
      potSum ((tickAux mcos msin g k bs).keep ++ (tickAux mcos msin g k bs).spawned)
        ≤ potSum bs := by
  intro k bs
  induction bs generalizing k with
  | nil => simp [tickAux, potSum_nil]
  | cons b rest ih =>
    simp only [tickAux]
    have hb := advance_pot_lt mcos msin g k b hg
    have hr := ih (advance mcos msin g k b GROW_SPEED).rk
    rw [potSum_append] at hr
    rw [potSum_cons]
    split
    · next hpos =>
      rw [if_pos hpos] at hb
      rw [List.cons_append, potSum_cons, potSum_append, potSum_append]
      omega
    · next hpos =>
      rw [if_neg hpos] at hb
      rw [potSum_append, potSum_append]
      omega

theorem tickAux_potSum_lt (mcos msin : ℚ → ℚ) (g : ℕ → ℚ) (hg : rngOK g)
    (k : ℕ) (b : Branch) (rest : List Branch) :
    potSum ((tickAux mcos msin g k (b :: rest)).keep
        ++ (tickAux mcos msin g k (b :: rest)).spawned)
      < potSum (b :: rest) := by
  simp only [tickAux]
  have hb := advance_pot_lt mcos msin g k b hg
  have hr := tickAux_potSum_le mcos msin g hg
    (advance mcos msin g k b GROW_SPEED).rk rest
  rw [potSum_append] at hr
  rw [potSum_cons]
  split
  · next hpos =>
    rw [if_pos hpos] at hb
    rw [List.cons_append, potSum_cons, potSum_append, potSum_append]
    omega
  · next hpos =>
    rw [if_neg hpos] at hb
    rw [potSum_append, potSum_append]
    omega

theorem stepSim_potSum_lt (mcos msin : ℚ → ℚ) (g : ℕ → ℚ) (hg : rngOK g)
    (st : SimState) (hne : st.branches ≠ []) :
    potSum (stepSim mcos msin g st).branches < potSum st.branches := by
  obtain ⟨b, rest, hcons⟩ := List.exists_cons_of_ne_nil hne
  simp only [stepSim]
  rw [hcons]
  exact tickAux_potSum_lt mcos msin g hg st.rk b rest

theorem simFrames_terminates (mcos msin : ℚ → ℚ) (g : ℕ → ℚ) (hg : rngOK g) :
    ∀ (M : ℕ) (st : SimState), potSum st.branches ≤ M →
      ∃ N, (simFrames mcos msin g st N).branches = [] := by
  intro M
  induction M with
  | zero =>
    intro st hst
    rcases eq_or_ne st.branches [] with he | hne
    · exact ⟨0, he⟩
    · exfalso
      obtain ⟨b, rest, hcons⟩ := List.exists_cons_of_ne_nil hne
      rw [hcons, potSum_cons] at hst
      have : 0 < pot b := Nat.pos_pow_of_pos _ (by norm_num)
      omega
  | succ M ih =>
    intro st hst
    rcases eq_or_ne st.branches [] with he | hne
    · exact ⟨0, he⟩
    · have hlt := stepSim_potSum_lt mcos msin g hg st hne
      obtain ⟨N, hN⟩ := ih (stepSim mcos msin g st) (by omega)
      exact ⟨N + 1, hN⟩

/-- C5: on each frame every branch in the collection is advanced exactly
once with GROW_SPEED; the next collection is exactly the advanced branches
with positive remaining length, in order, followed by all children spawned
this frame; and every branch in any later frame's collection has positive
remaining length, so a branch whose remaining length reaches 0 is dropped
and never reappears. -/
theorem tick_next_collection (mcos msin : ℚ → ℚ) (g : ℕ → ℚ) (k : ℕ)
    (bs : List Branch) (hg : rngOK g) :
    (tick mcos msin g k bs).1
        = ((advanceResults mcos msin g k bs).map StepRes.self).filter
            (fun b => decide (0 < b.remaining))
          ++ ((advanceResults mcos msin g k bs).map StepRes.children).flatten
      ∧ ∀ (n : ℕ) (b : Branch),
          b ∈ (simFrames mcos msin g (stepSim mcos msin g ⟨bs, k⟩) n).branches →
            0 < b.remaining := by
  constructor
  · show (tickAux mcos msin g k bs).keep ++ (tickAux mcos msin g k bs).spawned = _
    rw [tickAux_keep_eq, tickAux_spawned_eq]
  · intro n b hb
    exact simFrames_pos mcos msin g hg n ⟨bs, k⟩ b hb

/-- C5 witness at a concrete input. -/
theorem tick_next_collection_witness :
    rngOK g0 ∧
      (tick mc0 mc0 g0 0 [bW]).1
        = ((advanceResults mc0 mc0 g0 0 [bW]).map StepRes.self).filter
            (fun b => decide (0 < b.remaining))
          ++ ((advanceResults mc0 mc0 g0 0 [bW]).map StepRes.children).flatten :=
  ⟨rngOK_g0, (tick_next_collection mc0 mc0 g0 0 [bW] rngOK_g0).1⟩

/-- C7: from one seed-plant event, with every random draw in [0,1), the
frame loop empties the live collection after finitely many frames. -/
theorem simulation_terminates (mcos msin : ℚ → ℚ) (g : ℕ → ℚ) (k : ℕ)
    (x y : ℚ) (hg : rngOK g) :
    ∃ N, (simFrames mcos msin g
        ⟨(seedCrystal g k x y).1, (seedCrystal g k x y).2⟩ N).branches = [] :=
  simFrames_terminates mcos msin g hg (potSum (seedCrystal g k x y).1) _ le_rfl

/-- C7 witness at a concrete input. -/
theorem simulation_terminates_witness :
    rngOK g0 ∧
      ∃ N, (simFrames mc0 mc0 g0
          ⟨(seedCrystal g0 0 100 100).1, (seedCrystal g0 0 100 100).2⟩
          N).branches = [] :=
  ⟨rngOK_g0, simulation_terminates mc0 mc0 g0 0 100 100 rngOK_g0⟩

/-! ### Segment accounting (C8) -/

theorem advance_segs_ticks (mcos msin : ℚ → ℚ) (g : ℕ → ℚ) (k : ℕ) (b : Branch) :
    (advance mcos msin g k b GROW_SPEED).segs.length
      + (if 0 < (advance mcos msin g k b GROW_SPEED).self.remaining
          then ticksN (advance mcos msin g k b GROW_SPEED).self.remaining else 0)
      = ticksN b.remaining := by
  by_cases h0 : min GROW_SPEED b.remaining ≤ 0
  · have hrem : b.remaining ≤ 0 := by
      rcases min_le_iff.mp h0 with h | h
      · norm_num [GROW_SPEED] at h
      · exact h
    rw [advance_nonpos mcos msin g k b GROW_SPEED h0]
    rw [if_neg (not_lt.mpr hrem)]
    simp [ticksN_nonpos hrem]
  · push_neg at h0
    have hrem : 0 < b.remaining := (lt_min_iff.mp h0).2
    have hsr := advance_self_remaining mcos msin g k b GROW_SPEED h0
    have hts : ticksN (advance mcos msin g k b GROW_SPEED).self.remaining
        = ticksN b.remaining - 1 := by
      rw [hsr]
      exact ticksN_step hrem
    have hn1 : 1 ≤ ticksN b.remaining := ticksN_pos hrem
    have hsegs : (advance mcos msin g k b GROW_SPEED).segs.length = 1 := by
      rw [advance_segs_pos mcos msin g k b GROW_SPEED h0]
      rfl
    rw [hsegs]
    split
    · omega
    · next hneg =>
      have : ticksN (advance mcos msin g k b GROW_SPEED).self.remaining = 0 :=
        ticksN_nonpos (not_lt.mp hneg)
      omega

theorem tickAux_segs_ticks (mcos msin : ℚ → ℚ) (g : ℕ → ℚ) :
    ∀ (k : ℕ) (bs : List Branch),
      (tickAux mcos msin g k bs).segs.length
        + sumTicks (tickAux mcos msin g k bs).keep
      = sumTicks bs := by
  intro k bs
  induction bs generalizing k with
  | nil => rfl
  | cons b rest ih =>
    simp only [tickAux]
    rw [sumTicks_cons, List.length_append]
    have hb := advance_segs_ticks mcos msin g k b
    have hr := ih (advance mcos msin g k b GROW_SPEED).rk
    split
    · next hpos =>
      rw [if_pos hpos] at hb
      rw [sumTicks_cons]
      omega
    · next hpos =>
      rw [if_neg hpos] at hb
      omega

theorem stepRun_invariant (mcos msin : ℚ → ℚ) (g : ℕ → ℚ) (r : RunSt)
    (hr : r.segs + sumTicks r.branches = r.budget) :
    (stepRun mcos msin g r).segs + sumTicks (stepRun mcos msin g r).branches
      = (stepRun mcos msin g r).budget := by
  simp only [stepRun]
  rw [sumTicks_append]
  have := tickAux_segs_ticks mcos msin g r.rk r.branches
  omega

theorem runFrames_invariant (mcos msin : ℚ → ℚ) (g : ℕ → ℚ) :
    ∀ (n : ℕ) (r : RunSt), r.segs + sumTicks r.branches = r.budget →
      (runFrames mcos msin g r n).segs
          + sumTicks (runFrames mcos msin g r n).branches
        = (runFrames mcos msin g r n).budget := by
  intro n
  induction n with
  | zero => intro r hr; exact hr
  | succ n ih =>
    intro r hr
    exact ih (stepRun mcos msin g r) (stepRun_invariant mcos msin g r hr)

/-- C8 (amended): over a run from one seed-plant event, the number of
rendered segments plus the segment budget of the still-live branches
always equals the total segment budget of every branch ever created
(ceil(lengthAtCreation / GROW_SPEED) summed over all of them); hence when
the collection has emptied, the total number of rendered segments equals
that sum -- not the number of branch instances created. -/
theorem run_segment_accounting (mcos msin : ℚ → ℚ) (g : ℕ → ℚ) (k : ℕ)
    (x y : ℚ) (n : ℕ) :
    (runFrames mcos msin g (runInit g k x y) n).segs
        + sumTicks (runFrames mcos msin g (runInit g k x y) n).branches
      = (runFrames mcos msin g (runInit g k x y) n).budget
    ∧ ((runFrames mcos msin g (runInit g k x y) n).branches = [] →
        (runFrames mcos msin g (runInit g k x y) n).segs
          = (runFrames mcos msin g (runInit g k x y) n).budget) := by
  have hinit : (runInit g k x y).segs + sumTicks (runInit g k x y).branches
      = (runInit g k x y).budget := by
    simp [runInit]
  have hinv := runFrames_invariant mcos msin g n (runInit g k x y) hinit
  refine ⟨hinv, fun he => ?_⟩
  rw [he, sumTicks_nil] at hinv
  omega

/-- C8 witness: the concrete run empties after 8 frames, and its 45
segments equal its budget. -/
theorem run_segment_accounting_witness :
    (runFrames mc0 mc0 g0 (runInit g0 0 100 100) 8).branches = [] ∧
      (runFrames mc0 mc0 g0 (runInit g0 0 100 100) 8).segs
        = (runFrames mc0 mc0 g0 (runInit g0 0 100 100) 8).budget :=
  ⟨by with_unfolding_all rfl,
   (run_segment_accounting mc0 mc0 g0 0 100 100 8).2
     (by with_unfolding_all rfl)⟩

/-- C8 counterexample to the claim as stated: in the concrete complete run
from one seed at (100, 100) under the all-zero random stream, the
collection is empty after 8 frames, 45 segments were rendered, but only 15
branch instances were ever created. -/
theorem run_segments_ne_created :
    (runFrames mc0 mc0 g0 (runInit g0 0 100 100) 8).branches = []
      ∧ (runFrames mc0 mc0 g0 (runInit g0 0 100 100) 8).segs = 45
      ∧ (runFrames mc0 mc0 g0 (runInit g0 0 100 100) 8).created = 15
      ∧ (runFrames mc0 mc0 g0 (runInit g0 0 100 100) 8).segs
          ≠ (runFrames mc0 mc0 g0 (runInit g0 0 100 100) 8).created := by
  have h1 : (runFrames mc0 mc0 g0 (runInit g0 0 100 100) 8).segs = 45 := by
    with_unfolding_all rfl
  have h2 : (runFrames mc0 mc0 g0 (runInit g0 0 100 100) 8).created = 15 := by
    with_unfolding_all rfl
  refine ⟨by with_unfolding_all rfl, h1, h2, ?_⟩
  rw [h1, h2]
  norm_num

/-- C10 witness: at a concrete state and interior point, the cleared
surface shows the base color. -/
theorem clear_idempotent_witness :
    (0 : ℚ) ≤ 1 ∧ (1 : ℚ) < app0.canvas.width ∧
      (clear app0).canvas.pix (1, 1) = BG :=
  ⟨by norm_num, by norm_num [app0],
   (clear_idempotent app0).2.2 (1, 1) (by norm_num) (by norm_num [app0])
     (by norm_num) (by norm_num [app0])⟩

end Frost
